import Mathlib

/-!
Shallow embedding of the rankit ballot matrix and instant-runoff engine
(src/main.rs), together with proofs of the specified properties.

Machine integers are modelled as `Nat`; every Rust operation that can panic
(integer remainder by zero in `Ballot::new`, `unwrap` on the leader selection,
out-of-bounds indexing, `usize` underflow, `Vec::remove` out of range) is
modelled by an `Option`, with `none` standing for the panic.
-/

namespace Rankit

variable {α β T : Type}

/-- The ballot matrix: candidate labels plus the flat row-major rank matrix
(struct `Ballot<T>` in the source). -/
structure Ballot (T : Type) where
  labels : List T
  votes : List Nat
  deriving DecidableEq

/-- Models `Ballot::new`. Rust evaluates `votes.len() % labels.len()` first,
which panics (remainder by zero) whenever `labels` is empty; `none` models that
panic. Otherwise the validation of the source is performed and the rejected
inputs are returned unchanged in the error case. -/
def Ballot.new (labels : List T) (votes : List Nat) :
    Option (Except (List T × List Nat) (Ballot T)) :=
  if labels.length = 0 then none
  else if votes.length % labels.length == 0
      && votes.all (fun v => decide (v < labels.length)) then
    some (Except.ok ⟨labels, votes⟩)
  else
    some (Except.error (labels, votes))

/-- Models `Ballot::count`. -/
def Ballot.count (b : Ballot T) : Nat := b.labels.length

/-- Fuel-indexed model of `Iterator::step_by`: keeps the head, then skips
`n - 1` elements. The fuel only makes the recursion structural; it is
irrelevant as soon as it is at least the list length. -/
def stepByFuel (n : Nat) : Nat → List α → List α
  | _, [] => []
  | 0, _ :: _ => []
  | f + 1, x :: xs => x :: stepByFuel n f (xs.drop (n - 1))

/-- Models `iter().step_by(n)` on a list. -/
def stepBy (n : Nat) (l : List α) : List α := stepByFuel n l.length l

/-- Models one column view, `self.votes.iter().skip(i).step_by(count)`. -/
def column (votes : List Nat) (count i : Nat) : List Nat :=
  stepBy count (votes.drop i)

/-- Models the `tier` vector of `runoff`: for each remaining candidate, the
number of rows that currently rank it first (`col.filter(.. == 0).count()`). -/
def Ballot.tierList (b : Ballot T) : List Nat :=
  (List.range b.count).map (fun i =>
    ((column b.votes b.count i).filter (fun v => v == 0)).length)

/-- Models `(0..tier.len()).max_by_key(|i| tier[*i])`. Rust's `max_by_key`
returns the LAST maximal element (the fold replaces the accumulator unless its
key is strictly greater); `none` is the empty-range case on which the
`.unwrap()` in the source would panic. -/
def maxIdxLast (tier : List Nat) : Option Nat :=
  (List.range tier.length).foldl
    (fun acc i =>
      match acc with
      | none => some i
      | some j => if tier.getD i 0 < tier.getD j 0 then some j else some i)
    none

/-- Fuel-indexed model of `chunks_mut(n)`. The fuel only makes the recursion
structural; it is irrelevant as soon as it is at least the list length. In the
source `n` (the candidate count) is never zero where `rows()` is called. -/
def chunksFuel (n : Nat) : Nat → List α → List (List α)
  | _, [] => []
  | 0, _ :: _ => []
  | f + 1, x :: xs =>
    if n = 0 then [] else (x :: xs).take n :: chunksFuel n f ((x :: xs).drop n)

/-- Models `self.votes.chunks_mut(count)`, the row view of the matrix. -/
def chunks (n : Nat) (l : List α) : List (List α) := chunksFuel n l.length l

/-- One cell of the re-ranking pass: `*choice -= 1` guarded by
`rank > winner_rank`. The inner check models the `usize` underflow, which is
unreachable because a decremented cell is strictly greater than a `Nat`. -/
def decCell (r c : Nat) : Option Nat :=
  if r < c then (if c = 0 then none else some (c - 1)) else some c

/-- Re-ranks one row: `let winner_rank = row[winner_index]; ...`. `none`
models the panic on `row[winner_index]` out of bounds or on an underflow. -/
def reRankRowChecked (w : Nat) (row : List Nat) : Option (List Nat) :=
  match row[w]? with
  | none => none
  | some r => row.mapM (decCell r)

/-- The same per-row transform as the total function it is when `w` is in
bounds: cells strictly greater than the row's rank for the leader drop by one. -/
def reRankRow (w : Nat) (row : List Nat) : List Nat :=
  row.map (fun c => if row.getD w 0 < c then c - 1 else c)

/-- Models the whole `for row in self.rows()` re-ranking loop of `runoff`. -/
def reRankVotes (count w : Nat) (votes : List Nat) : Option (List Nat) :=
  ((chunks count votes).mapM (reRankRowChecked w)).map List.flatten

/-- Models the vote-compaction loop of `remove_column`: removing, from the
back, every index `i` with `i % count == col` keeps exactly the cells whose
flat index is not `col` modulo `count`. -/
def removeColumnVotes (count col : Nat) (votes : List Nat) : List Nat :=
  (votes.enum.filter (fun p => !(p.1 % count == col))).map Prod.snd

/-- One round of `runoff`: tally, select the leader (`unwrap`), re-rank every
row, remove the leader's column and label (`remove_column`), pop the leader's
tally (`tier.remove`), and emit the round result. `none` models any panic. -/
def runoffStep (b : Ballot T) : Option ((T × Nat × List (T × Nat)) × Ballot T) :=
  match maxIdxLast b.tierList with
  | none => none
  | some w =>
    match reRankVotes b.count w b.votes with
    | none => none
    | some votes2 =>
      match b.labels[w]?, b.tierList[w]? with
      | some winnerLabel, some winnerCount =>
        some ((winnerLabel, winnerCount,
               (b.labels.eraseIdx w).zip (b.tierList.eraseIdx w)),
              ⟨b.labels.eraseIdx w, removeColumnVotes b.count w votes2⟩)
      | _, _ => none

/-- Runs `n` rounds, threading the shrinking ballot state. -/
def runoffAux : Nat → Ballot T → Option (List (T × Nat × List (T × Nat)) × Ballot T)
  | 0, b => some ([], b)
  | n + 1, b =>
    match runoffStep b with
    | none => none
    | some (r, b2) =>
      match runoffAux n b2 with
      | none => none
      | some (rs, bf) => some (r :: rs, bf)

/-- Models `runoff`: the `(0..self.count()).map(...)` iterator, collected.
The range bound is the candidate count at the time of the call, so exactly
`C₀` rounds are attempted. The final ballot state is carried along so that
exhaustion can be stated. -/
def Ballot.runoff (b : Ballot T) : Option (List (T × Nat × List (T × Nat)) × Ballot T) :=
  runoffAux b.count b

/-- The index into the start-of-round lists that position `j` of the others
list refers to, once position `w` has been removed. -/
def skipIdx (w j : Nat) : Nat := if j < w then j else j + 1

/-- Every row of the matrix is a permutation of the dense range
`0..count` — the §3 invariant. -/
def RowsDense (b : Ballot T) : Prop :=
  ∀ row ∈ chunks b.count b.votes, row.Perm (List.range b.count)

/-- The nine-voter, three-candidate ballot of the source's `three_example`
test and of §8 of the spec. -/
def exampleBallot : Ballot Nat :=
  ⟨[0, 1, 2],
   [0, 1, 2,  0, 2, 1,  1, 2, 0,  1, 0, 2,  2, 0, 1,  2, 1, 0,
    0, 2, 1,  0, 2, 1,  2, 0, 1]⟩

/-- A two-candidate ballot whose first round is an exact tie. -/
def tieBallot : Ballot Nat := ⟨[0, 1], [0, 1, 1, 0]⟩

/-! ### Generic list helpers -/

theorem drop_append_general (l₁ l₂ : List α) (n : Nat) :
    (l₁ ++ l₂).drop n = l₁.drop n ++ l₂.drop (n - l₁.length) := by
  induction l₁ generalizing n with
  | nil => simp
  | cons x xs ih =>
    cases n with
    | zero => simp
    | succ m => simpa using ih m

theorem drop_append_of_le (l₁ l₂ : List α) (n : Nat) (h : n ≤ l₁.length) :
    (l₁ ++ l₂).drop n = l₁.drop n ++ l₂ := by
  rw [drop_append_general, Nat.sub_eq_zero_of_le h, List.drop_zero]

theorem enumFrom_append_general (l₁ l₂ : List α) (k : Nat) :
    (l₁ ++ l₂).enumFrom k = l₁.enumFrom k ++ l₂.enumFrom (k + l₁.length) := by
  induction l₁ generalizing k with
  | nil => simp
  | cons x xs ih =>
    simp only [List.cons_append, List.enumFrom_cons, ih (k + 1), List.length_cons]
    rw [Nat.add_assoc, Nat.add_comm 1 xs.length]

theorem mapM_eq_some_map (f : α → Option β) (g : α → β) :
    ∀ l : List α, (∀ a ∈ l, f a = some (g a)) → l.mapM f = some (l.map g) := by
  intro l
  induction l with
  | nil => intro _; rfl
  | cons x xs ih =>
    intro h
    rw [List.mapM_cons, h x (by simp), ih (fun a ha => h a (by simp [ha]))]
    rfl

theorem getD_zero_eq (l : List Nat) (w : Nat) (hw : w < l.length) :
    l.getD w 0 = l[w] := by
  rw [List.getD_eq_getElem?_getD, List.getElem?_eq_getElem hw]
  rfl

/-! ### chunks: the row view -/

theorem chunksFuel_congr (n : Nat) :
    ∀ f g (l : List α), l.length ≤ f → l.length ≤ g →
      chunksFuel n f l = chunksFuel n g l := by
  intro f
  induction f with
  | zero =>
    intro g l hf _
    have hl : l = [] := List.length_eq_zero.mp (Nat.le_zero.mp hf)
    subst hl
    cases g <;> rfl
  | succ f ih =>
    intro g l hf hg
    cases l with
    | nil => cases g <;> rfl
    | cons x xs =>
      cases g with
      | zero => simp at hg
      | succ g =>
        simp only [chunksFuel]
        by_cases hn : n = 0
        · simp [hn]
        · simp only [if_neg hn]
          have hlen : ((x :: xs).drop n).length = xs.length + 1 - n := by
            simp [List.length_drop]
          refine congrArg _ (ih g _ ?_ ?_) <;> simp at hf hg <;> omega

theorem chunks_nil (n : Nat) : chunks n ([] : List α) = [] := rfl

theorem chunks_cons (n : Nat) (hn : 0 < n) (x : α) (xs : List α) :
    chunks n (x :: xs) = (x :: xs).take n :: chunks n ((x :: xs).drop n) := by
  show chunksFuel n (x :: xs).length (x :: xs) = _
  rw [List.length_cons]
  simp only [chunksFuel, if_neg (Nat.pos_iff_ne_zero.mp hn)]
  refine congrArg _ (chunksFuel_congr n xs.length _ _ ?_ (Nat.le_refl _))
  simp [List.length_drop]
  omega

theorem chunksFuel_row_length (n : Nat) (hn : 0 < n) :
    ∀ f (l : List α), l.length ≤ f → n ∣ l.length →
      ∀ r ∈ chunksFuel n f l, r.length = n := by
  intro f
  induction f with
  | zero =>
    intro l hf _ r hr
    have hl : l = [] := List.length_eq_zero.mp (Nat.le_zero.mp hf)
    subst hl
    simp [chunksFuel] at hr
  | succ f ih =>
    intro l hf hdvd r hr
    cases l with
    | nil => simp [chunksFuel] at hr
    | cons x xs =>
      simp only [chunksFuel, if_neg (Nat.pos_iff_ne_zero.mp hn)] at hr
      have hle : n ≤ (x :: xs).length := Nat.le_of_dvd (by simp) hdvd
      rcases List.mem_cons.mp hr with hr | hr
      · rw [hr, List.length_take]
        simp at hle ⊢
        omega
      · refine ih ((x :: xs).drop n) ?_ ?_ r hr
        · simp at hf ⊢
          omega
        · rw [List.length_drop]
          exact Nat.dvd_sub' hdvd (Nat.dvd_refl n)

theorem chunks_row_length (n : Nat) (hn : 0 < n) (l : List α) (hdvd : n ∣ l.length) :
    ∀ r ∈ chunks n l, r.length = n :=
  chunksFuel_row_length n hn l.length l (Nat.le_refl _) hdvd

theorem chunksFuel_flatten_eq (n : Nat) (hn : 0 < n) :
    ∀ f (l : List α), l.length ≤ f → n ∣ l.length →
      (chunksFuel n f l).flatten = l := by
  intro f
  induction f with
  | zero =>
    intro l hf _
    have hl : l = [] := List.length_eq_zero.mp (Nat.le_zero.mp hf)
    subst hl
    rfl
  | succ f ih =>
    intro l hf hdvd
    cases l with
    | nil => rfl
    | cons x xs =>
      simp only [chunksFuel, if_neg (Nat.pos_iff_ne_zero.mp hn), List.flatten_cons]
      rw [ih ((x :: xs).drop n) (by simp at hf ⊢; omega)
            (by rw [List.length_drop]; exact Nat.dvd_sub' hdvd (Nat.dvd_refl n))]
      exact List.take_append_drop n (x :: xs)

theorem chunks_flatten_eq (n : Nat) (hn : 0 < n) (l : List α) (hdvd : n ∣ l.length) :
    (chunks n l).flatten = l :=
  chunksFuel_flatten_eq n hn l.length l (Nat.le_refl _) hdvd

theorem chunksFuel_length (n : Nat) (hn : 0 < n) :
    ∀ f (l : List α), l.length ≤ f → n ∣ l.length →
      (chunksFuel n f l).length = l.length / n := by
  intro f
  induction f with
  | zero =>
    intro l hf _
    have hl : l = [] := List.length_eq_zero.mp (Nat.le_zero.mp hf)
    subst hl
    simp [chunksFuel]
  | succ f ih =>
    intro l hf hdvd
    cases l with
    | nil => simp [chunksFuel]
    | cons x xs =>
      have hle : n ≤ (x :: xs).length := Nat.le_of_dvd (by simp) hdvd
      simp only [chunksFuel, if_neg (Nat.pos_iff_ne_zero.mp hn), List.length_cons]
      rw [ih ((x :: xs).drop n) (by simp at hf ⊢; omega)
            (by rw [List.length_drop]; exact Nat.dvd_sub' hdvd (Nat.dvd_refl n))]
      simp only [List.length_cons] at hle ⊢
      rw [List.length_drop, Nat.div_eq_sub_div hn hle]
      simp

theorem chunks_length (n : Nat) (hn : 0 < n) (l : List α) (hdvd : n ∣ l.length) :
    (chunks n l).length = l.length / n :=
  chunksFuel_length n hn l.length l (Nat.le_refl _) hdvd

theorem chunks_of_flatten (n : Nat) (hn : 0 < n) :
    ∀ rows : List (List α), (∀ r ∈ rows, r.length = n) →
      chunks n rows.flatten = rows := by
  intro rows
  induction rows with
  | nil => intro _; rfl
  | cons r rest ih =>
    intro h
    have hr : r.length = n := h r (by simp)
    cases r with
    | nil => rw [← hr] at hn; simp at hn
    | cons x xs =>
      have h1 : ((x :: xs) ++ rest.flatten).take n = x :: xs := List.take_left' hr
      have h2 : ((x :: xs) ++ rest.flatten).drop n = rest.flatten := by
        rw [drop_append_of_le _ _ _ (Nat.le_of_eq hr.symm),
          List.drop_eq_nil_of_le (Nat.le_of_eq hr), List.nil_append]
      rw [List.flatten_cons, List.cons_append, chunks_cons n hn, ← List.cons_append,
        h1, h2, ih (fun a ha => h a (by simp [ha]))]

/-! ### Column views and the tally vector -/

theorem stepByFuel_congr (n : Nat) :
    ∀ f g (l : List α), l.length ≤ f → l.length ≤ g →
      stepByFuel n f l = stepByFuel n g l := by
  intro f
  induction f with
  | zero =>
    intro g l hf _
    have hl : l = [] := List.length_eq_zero.mp (Nat.le_zero.mp hf)
    subst hl
    cases g <;> rfl
  | succ f ih =>
    intro g l hf hg
    cases l with
    | nil => cases g <;> rfl
    | cons x xs =>
      cases g with
      | zero => simp at hg
      | succ g =>
        simp only [stepByFuel]
        refine congrArg _ (ih g _ ?_ ?_) <;> simp at hf hg ⊢ <;> omega

theorem stepBy_nil (n : Nat) : stepBy n ([] : List α) = [] := rfl

theorem stepBy_cons (n : Nat) (x : α) (xs : List α) :
    stepBy n (x :: xs) = x :: stepBy n (xs.drop (n - 1)) := by
  show stepByFuel n (x :: xs).length (x :: xs) = _
  rw [List.length_cons]
  simp only [stepByFuel]
  exact congrArg _ (stepByFuel_congr n xs.length _ _ (by simp) (Nat.le_refl _))

theorem column_flatten (count i : Nat) (hi : i < count) :
    ∀ rows : List (List Nat), (∀ r ∈ rows, r.length = count) →
      column rows.flatten count i = rows.map (fun r => r.getD i 0) := by
  intro rows
  induction rows with
  | nil =>
    intro _
    rw [List.flatten_nil]
    unfold column
    rw [List.drop_nil]
    rfl
  | cons r rest ih =>
    intro h
    have hr : r.length = count := h r (by simp)
    have hlt : i < r.length := by omega
    unfold column
    rw [List.flatten_cons, drop_append_of_le _ _ _ (by omega),
      List.drop_eq_getElem_cons hlt, List.cons_append, stepBy_cons]
    have hdrop : ((r.drop (i + 1) ++ rest.flatten).drop (count - 1))
        = rest.flatten.drop i := by
      rw [drop_append_general, List.drop_eq_nil_of_le (by simp [List.length_drop]; omega)]
      rw [List.nil_append, List.length_drop]
      congr 1
      omega
    rw [hdrop, List.map_cons]
    refine congrArg₂ _ ?_ (ih (fun a ha => h a (by simp [ha])))
    rw [List.getD_eq_getElem?_getD, List.getElem?_eq_getElem hlt]
    rfl

theorem tierList_length (b : Ballot T) : b.tierList.length = b.count := by
  simp [Ballot.tierList]

theorem tierList_getElem? (b : Ballot T) (i : Nat) (hi : i < b.count) :
    b.tierList[i]? =
      some (((column b.votes b.count i).filter (fun v => v == 0)).length) := by
  unfold Ballot.tierList
  rw [List.getElem?_map, List.getElem?_range hi]
  rfl

/-- On a matrix all of whose rows have width `count`, the tally of column `i`
is the number of rows whose cell `i` is zero. -/
theorem tierList_getElem?_rows (b : Ballot T) (i : Nat) (hi : i < b.count)
    (hdvd : b.count ∣ b.votes.length) :
    b.tierList[i]? =
      some ((chunks b.count b.votes).countP (fun r => r.getD i 0 == 0)) := by
  have hn : 0 < b.count := by omega
  rw [tierList_getElem? b i hi]
  have hrows := chunks_row_length b.count hn b.votes hdvd
  have hfl : (chunks b.count b.votes).flatten = b.votes :=
    chunks_flatten_eq b.count hn b.votes hdvd
  congr 1
  calc ((column b.votes b.count i).filter (fun v => v == 0)).length
      = ((column (chunks b.count b.votes).flatten b.count i).filter
          (fun v => v == 0)).length := by rw [hfl]
    _ = (((chunks b.count b.votes).map (fun r => r.getD i 0)).filter
          (fun v => v == 0)).length := by
        rw [column_flatten b.count i hi _ hrows]
    _ = (chunks b.count b.votes).countP (fun r => r.getD i 0 == 0) := by
        rw [List.filter_map, List.length_map, List.countP_eq_length_filter]
        rfl

/-! ### Leader selection: last-argmax -/

theorem maxIdxLast_aux (tier : List Nat) :
    ∀ n : Nat, 0 < n →
      ∃ w, (List.range n).foldl
          (fun acc i =>
            match acc with
            | none => some i
            | some j => if tier.getD i 0 < tier.getD j 0 then some j else some i)
          none = some w ∧
        w < n ∧ (∀ i, i < n → tier.getD i 0 ≤ tier.getD w 0) ∧
        (∀ i, i < n → tier.getD i 0 = tier.getD w 0 → i ≤ w) := by
  intro n
  induction n with
  | zero => intro h; omega
  | succ m ih =>
    intro _
    rw [List.range_succ, List.foldl_append]
    rcases Nat.eq_zero_or_pos m with h0 | hm
    · subst h0
      refine ⟨0, rfl, Nat.zero_lt_one, fun i hi => ?_, fun i hi _ => by omega⟩
      have hi0 : i = 0 := by omega
      subst hi0
      exact Nat.le_refl _
    · obtain ⟨w, hw, hlt, hmax, hlast⟩ := ih hm
      rw [hw]
      simp only [List.foldl_cons, List.foldl_nil]
      by_cases hk : tier.getD m 0 < tier.getD w 0
      · refine ⟨w, by rw [if_pos hk], by omega, ?_, ?_⟩
        · intro i hi
          rcases Nat.lt_succ_iff_lt_or_eq.mp hi with hi' | hi'
          · exact hmax i hi'
          · subst hi'; omega
        · intro i hi he
          rcases Nat.lt_succ_iff_lt_or_eq.mp hi with hi' | hi'
          · exact hlast i hi' he
          · subst hi'; omega
      · refine ⟨m, by rw [if_neg hk], Nat.lt_succ_self m, ?_, ?_⟩
        · intro i hi
          rcases Nat.lt_succ_iff_lt_or_eq.mp hi with hi' | hi'
          · have := hmax i hi'
            omega
          · subst hi'; omega
        · intro i hi _
          omega

theorem maxIdxLast_isSome (tier : List Nat) (h : 0 < tier.length) :
    ∃ w, maxIdxLast tier = some w := by
  obtain ⟨w, hw, _, _, _⟩ := maxIdxLast_aux tier tier.length h
  exact ⟨w, hw⟩

theorem maxIdxLast_spec (tier : List Nat) (w : Nat) (h : maxIdxLast tier = some w) :
    w < tier.length ∧ (∀ i, i < tier.length → tier.getD i 0 ≤ tier.getD w 0) ∧
    (∀ i, i < tier.length → tier.getD i 0 = tier.getD w 0 → i ≤ w) := by
  rcases Nat.eq_zero_or_pos tier.length with h0 | hpos
  · unfold maxIdxLast at h
    rw [h0] at h
    simp [List.range_zero] at h
  · obtain ⟨w', hw', hlt, hmax, hlast⟩ := maxIdxLast_aux tier tier.length hpos
    have : w = w' := by
      have := h.symm.trans hw'
      exact (Option.some_injective _ this.symm).symm
    subst this
    exact ⟨hlt, hmax, hlast⟩

/-! ### The re-ranking pass -/

theorem decCell_eq (r c : Nat) : decCell r c = some (if r < c then c - 1 else c) := by
  unfold decCell
  by_cases h : r < c
  · rw [if_pos h, if_pos h, if_neg (by omega)]
  · rw [if_neg h, if_neg h]

theorem reRankRow_length (w : Nat) (row : List Nat) :
    (reRankRow w row).length = row.length := by
  simp [reRankRow]

theorem reRankRowChecked_eq (w : Nat) (row : List Nat) (hw : w < row.length) :
    reRankRowChecked w row = some (reRankRow w row) := by
  unfold reRankRowChecked
  rw [List.getElem?_eq_getElem hw]
  show row.mapM (decCell row[w]) = _
  refine mapM_eq_some_map _ _ row (fun c _ => ?_)
  rw [decCell_eq]
  have hgd : row.getD w 0 = row[w] := by
    rw [List.getD_eq_getElem?_getD, List.getElem?_eq_getElem hw]
    rfl
  rw [hgd]

theorem reRankVotes_eq (count w : Nat) (votes : List Nat) (hn : 0 < count)
    (hdvd : count ∣ votes.length) (hw : w < count) :
    reRankVotes count w votes =
      some ((chunks count votes).map (reRankRow w)).flatten := by
  unfold reRankVotes
  rw [mapM_eq_some_map (reRankRowChecked w) (reRankRow w) _
        (fun r hr => reRankRowChecked_eq w r
          (by rw [chunks_row_length count hn votes hdvd r hr]; exact hw))]
  rfl

/-! ### Column removal -/

theorem removeCol_enumFrom (count col : Nat) :
    ∀ (row : List Nat) (j q : Nat), j + row.length ≤ count →
      ((List.enumFrom (count * q + j) row).filter
        (fun p => !(p.1 % count == col))).map Prod.snd =
      if j ≤ col then row.eraseIdx (col - j) else row := by
  intro row
  induction row with
  | nil =>
    intro j q _
    by_cases hj : j ≤ col <;> simp [hj]
  | cons x xs ih =>
    intro j q h
    have hj : j < count := by simp at h; omega
    have hmod : (count * q + j) % count = j := by
      rw [Nat.mul_add_mod]
      exact Nat.mod_eq_of_lt hj
    have htail : count * q + j + 1 = count * q + (j + 1) := by omega
    have hxs : (j + 1) + xs.length ≤ count := by simp at h; omega
    rw [List.enumFrom_cons, List.filter_cons, htail]
    by_cases hjc : j = col
    · subst hjc
      simp only [hmod, beq_self_eq_true, Bool.not_true, Bool.false_eq_true, if_false]
      rw [ih (j + 1) q hxs, if_neg (by omega), if_pos (Nat.le_refl j),
        Nat.sub_self, List.eraseIdx_cons_zero]
    · have hpred : (!((count * q + j) % count == col)) = true := by
        rw [hmod]
        simp [hjc]
      rw [hpred, if_pos rfl, List.map_cons, ih (j + 1) q hxs]
      by_cases hlt : j < col
      · rw [if_pos (by omega), if_pos (by omega)]
        have hcj : col - j = (col - (j + 1)) + 1 := by omega
        rw [hcj, List.eraseIdx_cons_succ]
      · rw [if_neg (by omega), if_neg (by omega)]

theorem removeCol_rows (count col : Nat) :
    ∀ (rows : List (List Nat)) (q : Nat), (∀ r ∈ rows, r.length = count) →
      ((List.enumFrom (count * q) rows.flatten).filter
        (fun p => !(p.1 % count == col))).map Prod.snd =
      (rows.map (fun r => r.eraseIdx col)).flatten := by
  intro rows
  induction rows with
  | nil => intro q _; rfl
  | cons r rest ih =>
    intro q h
    have hr : r.length = count := h r (by simp)
    rw [List.flatten_cons, enumFrom_append_general, List.filter_append,
      List.map_append]
    have h1 := removeCol_enumFrom count col r 0 q (by omega)
    rw [Nat.add_zero, if_pos (Nat.zero_le col), Nat.sub_zero] at h1
    have h2 : count * q + r.length = count * (q + 1) := by rw [hr]; ring
    rw [h1, h2, ih (q + 1) (fun a ha => h a (by simp [ha])), List.map_cons,
      List.flatten_cons]

theorem removeColumnVotes_eq (count col : Nat) (rows : List (List Nat))
    (h : ∀ r ∈ rows, r.length = count) :
    removeColumnVotes count col rows.flatten =
      (rows.map (fun r => r.eraseIdx col)).flatten := by
  unfold removeColumnVotes
  rw [List.enum_eq_enumFrom]
  have hmain := removeCol_rows count col rows 0 h
  rw [Nat.mul_zero] at hmain
  exact hmain

/-! ### One round, fully characterised -/

theorem runoffStep_eq (b : Ballot T) (w : Nat)
    (hw : maxIdxLast b.tierList = some w)
    (hdvd : b.count ∣ b.votes.length) :
    ∃ hlt : w < b.labels.length,
      runoffStep b = some
        ((b.labels[w], b.tierList.getD w 0,
          (b.labels.eraseIdx w).zip (b.tierList.eraseIdx w)),
         ⟨b.labels.eraseIdx w,
          ((chunks b.count b.votes).map
            (fun row => (reRankRow w row).eraseIdx w)).flatten⟩) := by
  have hwlt : w < b.tierList.length := (maxIdxLast_spec _ _ hw).1
  have hwc : w < b.count := by rw [tierList_length] at hwlt; exact hwlt
  have hn : 0 < b.count := by omega
  have hlt : w < b.labels.length := hwc
  refine ⟨hlt, ?_⟩
  have hremove : removeColumnVotes b.count w
      ((chunks b.count b.votes).map (reRankRow w)).flatten =
      ((chunks b.count b.votes).map
        (fun row => (reRankRow w row).eraseIdx w)).flatten := by
    rw [removeColumnVotes_eq b.count w _
        (fun r hr => by
          obtain ⟨r2, hr2, hrr⟩ := List.mem_map.mp hr
          rw [← hrr, reRankRow_length]
          exact chunks_row_length _ hn _ hdvd r2 hr2),
      List.map_map]
    rfl
  have hgd : b.tierList[w] = b.tierList.getD w 0 := by
    rw [List.getD_eq_getElem?_getD, List.getElem?_eq_getElem hwlt]
    rfl
  unfold runoffStep
  simp only [hw, reRankVotes_eq b.count w b.votes hn hdvd hwc,
    List.getElem?_eq_getElem hlt, List.getElem?_eq_getElem hwlt]
  rw [hremove, hgd]

/-! ### Density: each row stays a permutation of the rank range -/

theorem perm_getElem_cons_eraseIdx (l : List α) (w : Nat) (hw : w < l.length) :
    l.Perm (l[w] :: l.eraseIdx w) := by
  induction l generalizing w with
  | nil => simp at hw
  | cons x xs ih =>
    cases w with
    | zero => simp
    | succ m =>
      have hm : m < xs.length := by simpa using hw
      have hval : (x :: xs)[m + 1] = xs[m] := by simp
      rw [hval, List.eraseIdx_cons_succ]
      exact ((ih m hm).cons x).trans (List.Perm.swap _ _ _)

theorem shift_perm :
    ∀ (m r : Nat), r ≤ m →
      ((List.range (m + 1)).map (fun c => if r < c then c - 1 else c)).Perm
        (r :: List.range m) := by
  intro m
  induction m with
  | zero =>
    intro r hr
    have hr0 : r = 0 := by omega
    subst hr0
    decide
  | succ m ih =>
    intro r hr
    by_cases hrm : r = m + 1
    · subst hrm
      have hid : (List.range (m + 2)).map (fun c => if m + 1 < c then c - 1 else c)
          = List.range (m + 2) := by
        have h1 : (List.range (m + 2)).map (fun c => if m + 1 < c then c - 1 else c)
            = (List.range (m + 2)).map id :=
          List.map_congr_left (fun c hc => by
            rw [if_neg (by simp at hc; omega)]
            rfl)
        rw [h1, List.map_id]
      rw [hid, List.range_succ]
      exact List.perm_append_singleton _ _
    · have hrm2 : r ≤ m := by omega
      rw [List.range_succ, List.map_append, List.map_cons, List.map_nil,
        if_pos (by omega : r < m + 1), Nat.add_sub_cancel]
      refine ((ih r hrm2).append_right [m]).trans ?_
      rw [List.cons_append, ← List.range_succ]

theorem reRankRow_getD_self (row : List Nat) (w : Nat) (hw : w < row.length) :
    (reRankRow w row).getD w 0 = row.getD w 0 := by
  have hw2 : w < (reRankRow w row).length := by
    rw [reRankRow_length]
    exact hw
  rw [getD_zero_eq _ w hw2]
  unfold reRankRow
  rw [List.getElem_map]
  have hgd : row.getD w 0 = row[w] := by
    rw [List.getD_eq_getElem?_getD, List.getElem?_eq_getElem hw]
    rfl
  rw [← hgd, if_neg (lt_irrefl _)]

theorem reRankRow_eraseIdx_perm (row : List Nat) (m w : Nat)
    (hperm : row.Perm (List.range (m + 1))) (hw : w < m + 1) :
    ((reRankRow w row).eraseIdx w).Perm (List.range m) := by
  have hlen : row.length = m + 1 := by rw [hperm.length_eq, List.length_range]
  have hwrow : w < row.length := by omega
  have hrle : row.getD w 0 ≤ m := by
    have hgd : row.getD w 0 = row[w] := by
      rw [List.getD_eq_getElem?_getD, List.getElem?_eq_getElem hwrow]
      rfl
    have hmem : row[w] ∈ row := List.getElem_mem _
    have h5 : row[w] < m + 1 := by
      have := hperm.mem_iff.mp hmem
      simpa using this
    rw [hgd]
    omega
  have key : (reRankRow w row).Perm
      (row.getD w 0 :: (reRankRow w row).eraseIdx w) := by
    have hw2 : w < (reRankRow w row).length := by
      rw [reRankRow_length]
      exact hwrow
    have h := perm_getElem_cons_eraseIdx (reRankRow w row) w hw2
    rw [← getD_zero_eq _ w hw2, reRankRow_getD_self row w hwrow] at h
    exact h
  have h2 : (reRankRow w row).Perm
      ((List.range (m + 1)).map (fun c => if row.getD w 0 < c then c - 1 else c)) :=
    hperm.map _
  have h3 := shift_perm m (row.getD w 0) hrle
  exact (key.symm.trans (h2.trans h3)).cons_inv

theorem sum_map_const (g : α → Nat) (k : Nat) :
    ∀ l : List α, (∀ x ∈ l, g x = k) → (l.map g).sum = l.length * k := by
  intro l
  induction l with
  | nil => intro _; simp
  | cons x xs ih =>
    intro h
    rw [List.map_cons, List.sum_cons, h x (by simp),
      ih (fun a ha => h a (by simp [ha])), List.length_cons]
    ring

/-- Row widths of the post-round matrix. -/
theorem step_rows_len (b : Ballot T) (w : Nat) (hn : 0 < b.count)
    (hwc : w < b.count) (hdvd : b.count ∣ b.votes.length) :
    ∀ r2 ∈ (chunks b.count b.votes).map
      (fun row => (reRankRow w row).eraseIdx w), r2.length = b.count - 1 := by
  intro r2 hr2
  obtain ⟨row, hrow, hval⟩ := List.mem_map.mp hr2
  have hrlen : row.length = b.count := chunks_row_length b.count hn b.votes hdvd row hrow
  rw [← hval]
  have h1 : w < (reRankRow w row).length := by
    rw [reRankRow_length, hrlen]
    exact hwc
  have h2 := List.length_eraseIdx_add_one h1
  rw [reRankRow_length, hrlen] at h2
  omega

/-- Length of the post-round flat matrix. -/
theorem step_votes_len (b : Ballot T) (w : Nat) (hn : 0 < b.count)
    (hwc : w < b.count) (hdvd : b.count ∣ b.votes.length) :
    (((chunks b.count b.votes).map
      (fun row => (reRankRow w row).eraseIdx w)).flatten).length =
      (b.votes.length / b.count) * (b.count - 1) := by
  rw [List.length_flatten, List.map_map]
  have hsum := sum_map_const
    (List.length ∘ fun row => (reRankRow w row).eraseIdx w) (b.count - 1)
    (chunks b.count b.votes)
    (fun row hrow => step_rows_len b w hn hwc hdvd _ (List.mem_map_of_mem _ hrow))
  rw [hsum, chunks_length b.count hn b.votes hdvd]

/-- The density invariant survives a round. -/
theorem rowsDense_step (b : Ballot T) (w : Nat) (hn : 0 < b.count)
    (hwc : w < b.count) (hdvd : b.count ∣ b.votes.length) (hD : RowsDense b) :
    RowsDense (⟨b.labels.eraseIdx w,
      ((chunks b.count b.votes).map
        (fun row => (reRankRow w row).eraseIdx w)).flatten⟩ : Ballot T) := by
  have hlt : w < b.labels.length := hwc
  have hc2 : (Ballot.count (⟨b.labels.eraseIdx w,
      ((chunks b.count b.votes).map
        (fun row => (reRankRow w row).eraseIdx w)).flatten⟩ : Ballot T))
      = b.count - 1 := by
    show (b.labels.eraseIdx w).length = b.count - 1
    have h1 := List.length_eraseIdx_add_one hlt
    have hbc : b.count = b.labels.length := rfl
    omega
  intro row2 hrow2
  rw [hc2] at hrow2 ⊢
  rcases Nat.eq_zero_or_pos (b.count - 1) with h0 | hpos
  · rw [h0] at hrow2
    have hflat : (((chunks b.count b.votes).map
        (fun row => (reRankRow w row).eraseIdx w)).flatten) = [] := by
      refine List.length_eq_zero.mp ?_
      rw [step_votes_len b w hn hwc hdvd, h0, Nat.mul_zero]
    rw [hflat] at hrow2
    simp [chunks_nil] at hrow2
  · rw [chunks_of_flatten (b.count - 1) hpos _
      (step_rows_len b w hn hwc hdvd)] at hrow2
    obtain ⟨row, hrow, hval⟩ := List.mem_map.mp hrow2
    have hperm : row.Perm (List.range ((b.count - 1) + 1)) := by
      have hc : (b.count - 1) + 1 = b.count := by omega
      rw [hc]
      exact hD row hrow
    rw [← hval]
    exact reRankRow_eraseIdx_perm row (b.count - 1) w hperm (by omega)

theorem sum_eraseIdx (l : List Nat) (w : Nat) (hw : w < l.length) :
    l.getD w 0 + (l.eraseIdx w).sum = l.sum := by
  have h := (perm_getElem_cons_eraseIdx l w hw).sum_eq
  rw [List.sum_cons] at h
  rw [getD_zero_eq l w hw]
  omega

theorem zip_map_snd (l1 : List α) :
    ∀ l2 : List Nat, l1.length = l2.length →
      (l1.zip l2).map Prod.snd = l2 := by
  induction l1 with
  | nil =>
    intro l2 h
    cases l2 with
    | nil => rfl
    | cons y ys => simp at h
  | cons x xs ih =>
    intro l2 h
    cases l2 with
    | nil => simp at h
    | cons y ys =>
      rw [List.zip_cons_cons, List.map_cons]
      rw [ih ys (by simpa using h)]

/-- One successful round: existence plus all the state invariants the next
round needs. -/
theorem runoffStep_inv (b : Ballot T) (hn : 0 < b.count)
    (hdvd : b.count ∣ b.votes.length) :
    ∃ rd b2, runoffStep b = some (rd, b2) ∧
      b2.count = b.count - 1 ∧
      b2.votes.length = (b.votes.length / b.count) * (b.count - 1) ∧
      (b.count - 1) ∣ b2.votes.length ∧
      (RowsDense b → RowsDense b2) ∧
      rd.2.1 + (rd.2.2.map Prod.snd).sum = b.tierList.sum := by
  obtain ⟨w, hw⟩ := maxIdxLast_isSome b.tierList (by rw [tierList_length]; exact hn)
  obtain ⟨hlt, hstep⟩ := runoffStep_eq b w hw hdvd
  have hwc : w < b.count := hlt
  have hwt : w < b.tierList.length := by rw [tierList_length]; exact hwc
  refine ⟨(b.labels[w], b.tierList.getD w 0,
      (b.labels.eraseIdx w).zip (b.tierList.eraseIdx w)),
    ⟨b.labels.eraseIdx w, ((chunks b.count b.votes).map
      (fun row => (reRankRow w row).eraseIdx w)).flatten⟩, hstep, ?_, ?_, ?_, ?_, ?_⟩
  · show (b.labels.eraseIdx w).length = b.count - 1
    have h1 := List.length_eraseIdx_add_one hlt
    have hbc : b.count = b.labels.length := rfl
    omega
  · exact step_votes_len b w hn hwc hdvd
  · show (b.count - 1) ∣ (((chunks b.count b.votes).map
      (fun row => (reRankRow w row).eraseIdx w)).flatten).length
    rw [step_votes_len b w hn hwc hdvd]
    exact Nat.dvd_mul_left _ _
  · exact rowsDense_step b w hn hwc hdvd
  · show b.tierList.getD w 0 +
      (((b.labels.eraseIdx w).zip (b.tierList.eraseIdx w)).map Prod.snd).sum
      = b.tierList.sum
    rw [zip_map_snd _ _ (by
      have h1 := List.length_eraseIdx_add_one hlt
      have h2 := List.length_eraseIdx_add_one hwt
      have hbc : b.count = b.labels.length := rfl
      have hbt := tierList_length b
      omega)]
    exact sum_eraseIdx _ w hwt

/-! ### The tally-sum invariant -/

theorem sum_map_add (f g : α → Nat) :
    ∀ l : List α,
      (l.map (fun i => f i + g i)).sum = (l.map f).sum + (l.map g).sum := by
  intro l
  induction l with
  | nil => rfl
  | cons x xs ih =>
    simp only [List.map_cons, List.sum_cons, ih]
    omega

theorem sum_indicator_countP (q : Nat → Bool) :
    ∀ row : List Nat,
      ((List.range row.length).map
        (fun i => if q (row.getD i 0) then 1 else 0)).sum = row.countP q := by
  intro row
  induction row with
  | nil => rfl
  | cons x xs ih =>
    rw [List.length_cons, List.range_succ_eq_map, List.map_cons, List.map_map,
      List.sum_cons]
    have hcomp : ((fun i => if q ((x :: xs).getD i 0) then 1 else 0) ∘ Nat.succ)
        = fun i => if q (xs.getD i 0) then 1 else 0 := by
      funext i
      rfl
    rw [hcomp, ih, List.countP_cons]
    by_cases h : q x <;> simp [h, Nat.add_comm]

theorem countP_range_zero (n : Nat) (_hn : 0 < n) :
    (List.range n).countP (fun v => v == 0) = 1 := by
  cases n with
  | zero => omega
  | succ m =>
    rw [List.range_succ_eq_map, List.countP_cons]
    have hz : (List.map Nat.succ (List.range m)).countP (fun v => v == 0) = 0 := by
      rw [List.countP_map]
      refine List.countP_eq_zero.mpr ?_
      intro a _
      simp [Function.comp]
    rw [hz]
    simp

theorem tierList_eq_rows (b : Ballot T) (_hn : 0 < b.count)
    (hdvd : b.count ∣ b.votes.length) :
    b.tierList = (List.range b.count).map
      (fun i => (chunks b.count b.votes).countP (fun r => r.getD i 0 == 0)) := by
  refine List.ext_getElem? ?_
  intro n
  rcases Nat.lt_or_ge n b.count with h | h
  · rw [tierList_getElem?_rows b n h hdvd, List.getElem?_map, List.getElem?_range h]
    rfl
  · rw [List.getElem?_eq_none (by rw [tierList_length]; exact h),
      List.getElem?_eq_none (by simp; exact h)]

theorem sum_range_countP (c : Nat) :
    ∀ rows : List (List Nat),
      ((List.range c).map (fun i => rows.countP (fun r => r.getD i 0 == 0))).sum
        = (rows.map (fun r => ((List.range c).map
            (fun i => if r.getD i 0 == 0 then 1 else 0)).sum)).sum := by
  intro rows
  induction rows with
  | nil => simp
  | cons r rest ih =>
    have hsplit : (fun i => ((r :: rest).countP (fun x => x.getD i 0 == 0)))
        = fun i => (if r.getD i 0 == 0 then 1 else 0)
            + rest.countP (fun x => x.getD i 0 == 0) := by
      funext i
      rw [List.countP_cons]
      omega
    rw [hsplit, sum_map_add, ih, List.map_cons, List.sum_cons]

/-- On a dense matrix every voter ranks exactly one candidate first, so the
round's tallies total the number of voters. -/
theorem tierList_sum (b : Ballot T) (hn : 0 < b.count)
    (hdvd : b.count ∣ b.votes.length) (hD : RowsDense b) :
    b.tierList.sum = b.votes.length / b.count := by
  have hrows := chunks_row_length b.count hn b.votes hdvd
  rw [tierList_eq_rows b hn hdvd, sum_range_countP]
  have hone : ∀ r ∈ chunks b.count b.votes,
      ((List.range b.count).map (fun i => if r.getD i 0 == 0 then 1 else 0)).sum
        = 1 := by
    intro r hr
    have hlen : r.length = b.count := hrows r hr
    have hperm := hD r hr
    rw [← hlen, sum_indicator_countP (fun v => v == 0) r, hperm.countP_eq]
    exact countP_range_zero b.count hn
  rw [sum_map_const _ 1 _ hone, chunks_length b.count hn b.votes hdvd]
  omega

/-! ### Whole-run lemmas -/

theorem runoffAux_succ_eq (n : Nat) (b : Ballot T)
    (rd : T × Nat × List (T × Nat)) (b2 : Ballot T)
    (h : runoffStep b = some (rd, b2)) :
    runoffAux (n + 1) b =
      (match runoffAux n b2 with
        | none => none
        | some (rs, bf2) => some (rd :: rs, bf2)) := by
  show (match runoffStep b with
    | none => none
    | some (r, b3) =>
      match runoffAux n b3 with
      | none => none
      | some (rs, bf2) => some (r :: rs, bf2)) = _
  rw [h]

/-- Every round succeeds, exactly `n` rounds are produced, and the final state
is the empty ballot. -/
theorem runoffAux_total :
    ∀ (n : Nat) (b : Ballot T), b.count = n → n ∣ b.votes.length →
      ∃ rounds, runoffAux n b = some (rounds, (⟨[], []⟩ : Ballot T)) ∧
        rounds.length = n := by
  intro n
  induction n with
  | zero =>
    intro b hc hdvd
    have hl : b.labels = [] := List.length_eq_zero.mp hc
    have hv : b.votes = [] :=
      List.length_eq_zero.mp (Nat.eq_zero_of_zero_dvd hdvd)
    refine ⟨[], ?_, rfl⟩
    have hb : b = (⟨[], []⟩ : Ballot T) := by
      cases b
      simp_all
    rw [← hb]
    rfl
  | succ n ih =>
    intro b hc hdvd
    have hn : 0 < b.count := by omega
    obtain ⟨rd, b2, hstep, hc2, _, hdvd2, _, _⟩ :=
      runoffStep_inv b hn (by rw [hc]; exact hdvd)
    obtain ⟨rounds, haux, hlen⟩ := ih b2 (by omega)
      (by have he : b.count - 1 = n := by omega
          rw [← he]
          exact hdvd2)
    refine ⟨rd :: rounds, ?_, by simp [hlen]⟩
    rw [runoffAux_succ_eq n b rd b2 hstep, haux]

/-- Every emitted round's reported tallies (leader plus others) sum to the
number of voters. -/
theorem runoffAux_sum :
    ∀ (n : Nat) (b : Ballot T) (V : Nat), b.count = n →
      b.votes.length = V * n → RowsDense b →
      ∀ rounds bf, runoffAux n b = some (rounds, bf) →
        ∀ rd ∈ rounds, rd.2.1 + (rd.2.2.map Prod.snd).sum = V := by
  intro n
  induction n with
  | zero =>
    intro b V hc hv hD rounds bf haux rd hrd
    have h1 : rounds = [] := by
      have : some (([] : List (T × Nat × List (T × Nat))), b) = some (rounds, bf) := haux
      exact (Prod.mk.injEq _ _ _ _ ▸ (Option.some_injective _ this)).1.symm
    subst h1
    simp at hrd
  | succ n ih =>
    intro b V hc hv hD rounds bf haux rd hrd
    have hn : 0 < b.count := by omega
    have hdvd : b.count ∣ b.votes.length := by
      rw [hc, hv]
      exact Nat.dvd_mul_left _ _
    obtain ⟨rd1, b2, hstep, hc2, hlen2, hdvd2, hDp, hsum1⟩ :=
      runoffStep_inv b hn hdvd
    rw [runoffAux_succ_eq n b rd1 b2 hstep] at haux
    cases h3 : runoffAux n b2 with
    | none =>
      rw [h3] at haux
      exact absurd haux (by simp)
    | some p =>
      obtain ⟨rs, bf2⟩ := p
      rw [h3] at haux
      have hinj := Option.some_injective _ haux
      have hrounds : rd1 :: rs = rounds := congrArg Prod.fst hinj
      rw [← hrounds] at hrd
      have hV : b.votes.length / b.count = V := by
        rw [hc, hv]
        exact Nat.mul_div_cancel V (by omega)
      rcases List.mem_cons.mp hrd with hrd1eq | hrdrest
      · subst hrd1eq
        rw [hsum1, tierList_sum b hn hdvd hD, hV]
      · refine ih b2 V (by omega) ?_ (hDp hD) rs bf2 h3 rd hrdrest
        rw [hlen2, hV]
        have hcn : b.count - 1 = n := by omega
        rw [hcn]
/-! ### Inverting a successful round -/

theorem runoffStep_some_inv (b : Ballot T) (rd : T × Nat × List (T × Nat))
    (b2 : Ballot T) (h : runoffStep b = some (rd, b2)) :
    ∃ w, maxIdxLast b.tierList = some w ∧
      b.labels[w]? = some rd.1 ∧
      b.tierList[w]? = some rd.2.1 ∧
      rd.2.2 = (b.labels.eraseIdx w).zip (b.tierList.eraseIdx w) ∧
      b2.labels = b.labels.eraseIdx w := by
  unfold runoffStep at h
  cases hw : maxIdxLast b.tierList with
  | none =>
    rw [hw] at h
    exact Option.noConfusion h
  | some w =>
    rw [hw] at h
    have h1 : (match reRankVotes b.count w b.votes with
      | none => none
      | some votes2 =>
        match b.labels[w]?, b.tierList[w]? with
        | some winnerLabel, some winnerCount =>
          some ((winnerLabel, winnerCount,
                 (b.labels.eraseIdx w).zip (b.tierList.eraseIdx w)),
                (⟨b.labels.eraseIdx w, removeColumnVotes b.count w votes2⟩ : Ballot T))
        | _, _ => none) = some (rd, b2) := h
    cases hrv : reRankVotes b.count w b.votes with
    | none =>
      rw [hrv] at h1
      exact Option.noConfusion h1
    | some votes2 =>
      rw [hrv] at h1
      cases hl : b.labels[w]? with
      | none =>
        rw [hl] at h1
        exact Option.noConfusion h1
      | some lbl =>
        cases ht : b.tierList[w]? with
        | none =>
          rw [hl, ht] at h1
          exact Option.noConfusion h1
        | some cnt =>
          rw [hl, ht] at h1
          have hinj := Option.some_injective _ h1
          have hrd : rd = (lbl, cnt,
              (b.labels.eraseIdx w).zip (b.tierList.eraseIdx w)) :=
            (congrArg Prod.fst hinj).symm
          have hb2 : b2 = (⟨b.labels.eraseIdx w,
              removeColumnVotes b.count w votes2⟩ : Ballot T) :=
            (congrArg Prod.snd hinj).symm
          refine ⟨w, rfl, ?_, ?_, ?_, ?_⟩
          · rw [hrd, hl]
          · rw [hrd, ht]
          · rw [hrd]
          · rw [hb2]

/-! ### Indexed access through eraseIdx, zip and flatten -/

theorem getElem?_eraseIdx_skip (l : List α) :
    ∀ (w j : Nat), w < l.length →
      (l.eraseIdx w)[j]? = l[skipIdx w j]? := by
  induction l with
  | nil => intro w j hw; simp at hw
  | cons x xs ih =>
    intro w j hw
    unfold skipIdx
    cases w with
    | zero =>
      rw [if_neg (Nat.not_lt_zero j), List.eraseIdx_cons_zero,
        List.getElem?_cons_succ]
    | succ m =>
      cases j with
      | zero =>
        rw [if_pos (Nat.succ_pos m), List.eraseIdx_cons_succ]
        simp
      | succ k =>
        have hm : m < xs.length := by simpa using hw
        rw [List.eraseIdx_cons_succ, List.getElem?_cons_succ, ih m k hm]
        unfold skipIdx
        by_cases hk : k < m
        · rw [if_pos hk, if_pos (by omega), List.getElem?_cons_succ]
        · rw [if_neg hk, if_neg (by omega), List.getElem?_cons_succ]

theorem flatten_getD (c : Nat) :
    ∀ (rows : List (List Nat)) (k j : Nat), (∀ r ∈ rows, r.length = c) →
      k < rows.length → j < c →
      (rows.flatten).getD (k * c + j) 0 = (rows.getD k []).getD j 0 := by
  intro rows
  induction rows with
  | nil => intro k j _ hk _; simp at hk
  | cons r rest ih =>
    intro k j h hk hj
    have hr : r.length = c := h r (by simp)
    cases k with
    | zero =>
      rw [List.flatten_cons]
      simp only [Nat.zero_mul, Nat.zero_add]
      rw [List.getD_eq_getElem?_getD, List.getElem?_append_left (by omega),
        ← List.getD_eq_getElem?_getD]
      rfl
    | succ k =>
      rw [List.flatten_cons]
      have hidx : (k + 1) * c + j = r.length + (k * c + j) := by
        rw [hr]
        ring
      rw [List.getD_eq_getElem?_getD, hidx, List.getElem?_append_right (by omega),
        Nat.add_sub_cancel_left, ← List.getD_eq_getElem?_getD,
        ih k j (fun a ha => h a (by simp [ha])) (by simpa using hk) hj]
      rfl

/-! ### Validation inversion -/

theorem new_ok_inv (labels : List T) (votes : List Nat) (b : Ballot T)
    (h : Ballot.new labels votes = some (Except.ok b)) :
    b = ⟨labels, votes⟩ ∧ 0 < labels.length ∧ labels.length ∣ votes.length ∧
      ∀ v ∈ votes, v < labels.length := by
  unfold Ballot.new at h
  by_cases h0 : labels.length = 0
  · rw [if_pos h0] at h
    exact Option.noConfusion h
  · rw [if_neg h0] at h
    by_cases hc : (votes.length % labels.length == 0
        && votes.all (fun v => decide (v < labels.length))) = true
    · rw [if_pos hc] at h
      have hb : Except.ok (⟨labels, votes⟩ : Ballot T) = Except.ok b :=
        Option.some_injective _ h
      have hcond := Bool.and_eq_true_iff.mp hc
      have hdvd : labels.length ∣ votes.length :=
        Nat.dvd_of_mod_eq_zero (by simpa using hcond.1)
      have hall : ∀ v ∈ votes, v < labels.length := by
        intro v hv
        have := List.all_eq_true.mp hcond.2 v hv
        exact of_decide_eq_true this
      exact ⟨(Except.ok.injEq _ _).mp hb.symm, by omega, hdvd, hall⟩
    · rw [if_neg hc] at h
      have := Option.some_injective _ h
      exact Except.noConfusion this

/-! ## The claims -/

/-- C1 (amended): in every round of runoff, the leader selected for removal is
a candidate index with the maximum first-place tally, and when several indices
share the maximum tally, the LAST (highest) such index is selected — Rust's
`max_by_key` keeps the last maximal element, not the first. -/
theorem c1_leader_last_argmax (b : Ballot T) (rd : T × Nat × List (T × Nat))
    (b2 : Ballot T) (h : runoffStep b = some (rd, b2)) :
    ∃ w, maxIdxLast b.tierList = some w ∧ b.labels[w]? = some rd.1 ∧
      w < b.tierList.length ∧
      (∀ i, i < b.tierList.length →
        b.tierList.getD i 0 ≤ b.tierList.getD w 0) ∧
      (∀ i, i < b.tierList.length →
        b.tierList.getD i 0 = b.tierList.getD w 0 → i ≤ w) := by
  obtain ⟨w, hw, hl, _, _, _⟩ := runoffStep_some_inv b rd b2 h
  obtain ⟨hwlen, hmax, hlast⟩ := maxIdxLast_spec _ _ hw
  exact ⟨w, hw, hl, hwlen, hmax, hlast⟩

/-- C1 witness: instantiated at the two-candidate tie. -/
theorem c1_witness :
    ∃ w, maxIdxLast tieBallot.tierList = some w ∧
      tieBallot.labels[w]? = some 1 ∧
      w < tieBallot.tierList.length ∧
      (∀ i, i < tieBallot.tierList.length →
        tieBallot.tierList.getD i 0 ≤ tieBallot.tierList.getD w 0) ∧
      (∀ i, i < tieBallot.tierList.length →
        tieBallot.tierList.getD i 0 = tieBallot.tierList.getD w 0 → i ≤ w) :=
  c1_leader_last_argmax tieBallot (1, 1, [(0, 1)]) ⟨[0], [0, 0]⟩ rfl

/-- C1 counterexample: on `tieBallot` both candidates tally 1, yet the round-1
leader is index 1 (its label 1 is removed), not the lowest index 0 as claimed. -/
theorem c1_counterexample :
    tieBallot.tierList = [1, 1] ∧
    (runoffStep tieBallot).map (fun p => p.1.1) = some 1 ∧ (1 : Nat) ≠ 0 :=
  ⟨rfl, rfl, by decide⟩

/-- C2 (amended): for every input whose labels vector is NON-empty,
`Ballot::new` returns Ok or Err and never panics. (On an empty labels vector
the modulo in the validation panics, modelled by `none`.) -/
theorem c2_new_total_of_nonempty (labels : List T) (votes : List Nat)
    (h : labels ≠ []) : (Ballot.new labels votes).isSome = true := by
  have hlen : ¬ labels.length = 0 := by simpa using h
  unfold Ballot.new
  rw [if_neg hlen]
  by_cases hc : (votes.length % labels.length == 0
      && votes.all (fun v => decide (v < labels.length))) = true
  · rw [if_pos hc]
    rfl
  · rw [if_neg hc]
    rfl

/-- C2 witness. -/
theorem c2_witness :
    ([0] : List Nat) ≠ [] ∧ (Ballot.new ([0] : List Nat) [0]).isSome = true :=
  ⟨by simp, c2_new_total_of_nonempty [0] [0] (by simp)⟩

/-- C2 counterexample: with an empty labels vector `Ballot::new` evaluates
`votes.len() % 0`, which panics in Rust (modelled `none`): it returns neither
an Ok nor an Err value, refuting "never panics" for every input. -/
theorem c2_counterexample :
    Ballot.new ([] : List Nat) [] = none ∧
    (Ballot.new ([] : List Nat) []).isSome = false :=
  ⟨rfl, rfl⟩

/-- C3 (amended): the nine-voter scenario yields the winner-order sequence
0, 2, 1, with candidate 0 leading round 1 with FOUR first-place votes (the
full trace being 0 with 4, then 2 with 5, then 1 with 9). -/
theorem c3_example_run :
    exampleBallot.runoff = some
      ([(0, 4, [(1, 3), (2, 2)]), (2, 5, [(1, 4)]), (1, 9, [])],
       (⟨[], []⟩ : Ballot Nat)) ∧
    (exampleBallot.runoff).map (fun p => p.1.map Prod.fst) = some [0, 2, 1] :=
  ⟨rfl, rfl⟩

/-- C3 counterexample: the round-1 leader tally is 4, not 3 as claimed (the
per-round leader tallies are 4, 5, 9). -/
theorem c3_counterexample :
    (exampleBallot.runoff).map (fun p => p.1.map (fun rd => rd.2.1))
      = some [4, 5, 9] ∧ (4 : Nat) ≠ 3 :=
  ⟨rfl, by decide⟩

/-- C4 (amended): provided the labels vector is non-empty, `Ballot::new`
returns Ok exactly when the vote count is an exact multiple of the label count
and every rank value is strictly below the label count; otherwise it returns
Err carrying the original inputs unchanged. -/
theorem c4_new_spec (labels : List T) (votes : List Nat) (h : labels ≠ []) :
    ((votes.length % labels.length = 0 ∧ ∀ v ∈ votes, v < labels.length) →
      Ballot.new labels votes = some (Except.ok ⟨labels, votes⟩)) ∧
    (¬ (votes.length % labels.length = 0 ∧ ∀ v ∈ votes, v < labels.length) →
      Ballot.new labels votes = some (Except.error (labels, votes))) := by
  have hlen : ¬ labels.length = 0 := by simpa using h
  have hcond : (votes.length % labels.length == 0
      && votes.all (fun v => decide (v < labels.length))) = true
      ↔ (votes.length % labels.length = 0 ∧ ∀ v ∈ votes, v < labels.length) := by
    simp [List.all_eq_true]
  unfold Ballot.new
  rw [if_neg hlen]
  constructor
  · intro hp
    rw [if_pos (hcond.mpr hp)]
  · intro hp
    rw [if_neg (fun hb => hp (hcond.mp hb))]

/-- C4 witness: an accepted and a rejected input, labels non-empty. -/
theorem c4_witness :
    ([10, 20] : List Nat) ≠ [] ∧
    Ballot.new [10, 20] [0, 1, 1, 0]
      = some (Except.ok ⟨[10, 20], [0, 1, 1, 0]⟩) ∧
    Ballot.new [10, 20] [0, 2, 1, 0]
      = some (Except.error ([10, 20], [0, 2, 1, 0])) :=
  ⟨by simp,
   (c4_new_spec [10, 20] [0, 1, 1, 0] (by simp)).1 (by decide),
   (c4_new_spec [10, 20] [0, 2, 1, 0] (by simp)).2 (by decide)⟩

/-- C4 counterexample: for empty labels and votes `[0]` the claim demands an
Err carrying the inputs, but the code panics on the modulo (modelled `none`). -/
theorem c4_counterexample :
    Ballot.new ([] : List Nat) [0] = none ∧
    Ballot.new ([] : List Nat) [0]
      ≠ some (Except.error (([] : List Nat), [0])) :=
  ⟨rfl, fun hcontra => Option.noConfusion hcontra⟩

/-- C5: on every ballot accepted by `Ballot::new`, `runoff` performs all its
rounds — tallying, leader selection (the `unwrap`), re-ranking (indexing and
decrements), column removal — without any panic: the checked model returns a
value. -/
theorem c5_runoff_total (labels : List T) (votes : List Nat) (b : Ballot T)
    (h : Ballot.new labels votes = some (Except.ok b)) :
    (b.runoff).isSome = true := by
  obtain ⟨hb, hpos, hdvd, _⟩ := new_ok_inv labels votes b h
  have hdvd2 : b.count ∣ b.votes.length := by
    rw [hb]
    exact hdvd
  obtain ⟨rounds, haux, _⟩ := runoffAux_total b.count b rfl hdvd2
  unfold Ballot.runoff
  rw [haux]
  rfl

/-- C5 witness. -/
theorem c5_witness :
    Ballot.new [0, 1, 2] exampleBallot.votes = some (Except.ok exampleBallot) ∧
    (exampleBallot.runoff).isSome = true :=
  ⟨by rfl, c5_runoff_total [0, 1, 2] exampleBallot.votes exampleBallot (by rfl)⟩

/-- C7: a round of runoff preserves density: if every row is a permutation of
`0..C`, then after re-ranking and column removal every row of the new state is
a permutation of `0..(C-1)` (and the candidate count drops by one). -/
theorem c7_density_preserved (b : Ballot T) (rd : T × Nat × List (T × Nat))
    (b2 : Ballot T) (hdvd : b.count ∣ b.votes.length) (hD : RowsDense b)
    (h : runoffStep b = some (rd, b2)) :
    RowsDense b2 ∧ b2.count = b.count - 1 ∧ b2.count ∣ b2.votes.length := by
  have hn : 0 < b.count := by
    by_contra hc
    have h0 : b.count = 0 := by omega
    have htl : b.tierList = [] := by
      unfold Ballot.tierList
      rw [h0]
      rfl
    unfold runoffStep at h
    rw [htl] at h
    have hm : maxIdxLast ([] : List Nat) = none := rfl
    rw [hm] at h
    exact Option.noConfusion h
  obtain ⟨rd2, b3, hstep, hc2, _, hdvd2, hDp, _⟩ := runoffStep_inv b hn hdvd
  have hinj := Option.some_injective _ (hstep.symm.trans h)
  have hb3 : b3 = b2 := congrArg Prod.snd hinj
  subst hb3
  exact ⟨hDp hD, hc2, by rw [hc2]; exact hdvd2⟩

/-- C7 witness: round 1 of the nine-voter example. -/
theorem c7_witness :
    RowsDense (⟨[1, 2],
        [0, 1, 1, 0, 1, 0, 0, 1, 0, 1, 1, 0, 1, 0, 1, 0, 0, 1]⟩ : Ballot Nat) ∧
      Ballot.count (⟨[1, 2],
        [0, 1, 1, 0, 1, 0, 0, 1, 0, 1, 1, 0, 1, 0, 1, 0, 0, 1]⟩ : Ballot Nat)
        = exampleBallot.count - 1 ∧
      Ballot.count (⟨[1, 2],
        [0, 1, 1, 0, 1, 0, 0, 1, 0, 1, 1, 0, 1, 0, 1, 0, 0, 1]⟩ : Ballot Nat)
        ∣ (18 : Nat) :=
  c7_density_preserved exampleBallot (0, 4, [(1, 3), (2, 2)])
    ⟨[1, 2], [0, 1, 1, 0, 1, 0, 0, 1, 0, 1, 1, 0, 1, 0, 1, 0, 0, 1]⟩
    ⟨9, rfl⟩ (by unfold RowsDense; decide) rfl

/-- C8: on a ballot whose rows are permutations of the rank range, every
emitted round's reported tallies — the leader's plus all the others — sum to
the number of voters V. -/
theorem c8_tally_sum (b : Ballot T) (V : Nat) (hV : b.votes.length = V * b.count)
    (hD : RowsDense b) (rounds : List (T × Nat × List (T × Nat))) (bf : Ballot T)
    (h : b.runoff = some (rounds, bf)) :
    ∀ rd ∈ rounds, rd.2.1 + (rd.2.2.map Prod.snd).sum = V :=
  runoffAux_sum b.count b V rfl hV hD rounds bf h

/-- C8 witness: round 2 of the nine-voter example, 5 + 4 = 9 voters. -/
theorem c8_witness :
    (5 : Nat) + (([((1 : Nat), (4 : Nat))]).map Prod.snd).sum = 9 :=
  c8_tally_sum exampleBallot 9 rfl (by unfold RowsDense; decide)
    [(0, 4, [(1, 3), (2, 2)]), (2, 5, [(1, 4)]), (1, 9, [])]
    ⟨[], []⟩ rfl (2, 5, [(1, 4)]) (by decide)

/-- C9: each emitted round is the leader's label, the leader's start-of-round
tally, and, for position j, the label at start-of-round index `skipIdx w j`
paired with that same candidate's start-of-round tally; the others list covers
all `C - 1` non-leader candidates, and the tallies are the ones counted before
re-ranking and removal (they are read off the start state's tally vector). -/
theorem c9_round_shape (b : Ballot T) (rd : T × Nat × List (T × Nat))
    (b2 : Ballot T) (h : runoffStep b = some (rd, b2)) :
    ∃ w, maxIdxLast b.tierList = some w ∧
      b.labels[w]? = some rd.1 ∧
      b.tierList[w]? = some rd.2.1 ∧
      rd.2.2.length = b.count - 1 ∧
      (∀ j l c, rd.2.2[j]? = some (l, c) →
        b.labels[skipIdx w j]? = some l ∧
        b.tierList[skipIdx w j]? = some c) ∧
      b2.labels = b.labels.eraseIdx w := by
  obtain ⟨w, hw, hl, ht, hothers, hb2⟩ := runoffStep_some_inv b rd b2 h
  have hwlen := (maxIdxLast_spec _ _ hw).1
  have hlab : w < b.labels.length := by
    rw [tierList_length] at hwlen
    exact hwlen
  refine ⟨w, hw, hl, ht, ?_, ?_, hb2⟩
  · rw [hothers, List.length_zip]
    have h1 := List.length_eraseIdx_add_one hlab
    have h2 := List.length_eraseIdx_add_one hwlen
    have hbc : b.count = b.labels.length := rfl
    have hbt := tierList_length b
    omega
  · intro j l c hj
    rw [hothers] at hj
    obtain ⟨hjl, hjt⟩ := List.getElem?_zip_eq_some.mp hj
    rw [getElem?_eraseIdx_skip _ w j hlab] at hjl
    rw [getElem?_eraseIdx_skip _ w j hwlen] at hjt
    exact ⟨hjl, hjt⟩

/-- C9 witness: round 1 of the nine-voter example. -/
theorem c9_witness :
    ∃ w, maxIdxLast exampleBallot.tierList = some w ∧
      exampleBallot.labels[w]? = some 0 ∧
      exampleBallot.tierList[w]? = some 4 ∧
      ([((1 : Nat), (3 : Nat)), (2, 2)]).length = exampleBallot.count - 1 ∧
      (∀ j l c, ([((1 : Nat), (3 : Nat)), (2, 2)])[j]? = some (l, c) →
        exampleBallot.labels[skipIdx w j]? = some l ∧
        exampleBallot.tierList[skipIdx w j]? = some c) ∧
      ([1, 2] : List Nat) = exampleBallot.labels.eraseIdx w :=
  c9_round_shape exampleBallot (0, 4, [(1, 3), (2, 2)])
    ⟨[1, 2], [0, 1, 1, 0, 1, 0, 0, 1, 0, 1, 1, 0, 1, 0, 1, 0, 0, 1]⟩ rfl

/-- C10: runoff on a validly constructed ballot with C₀ candidates yields
exactly C₀ round results, and afterwards the candidate/label set (and the
matrix) is empty. -/
theorem c10_round_count_exhaustion (labels : List T) (votes : List Nat)
    (b : Ballot T) (h : Ballot.new labels votes = some (Except.ok b)) :
    ∃ rounds, b.runoff = some (rounds, (⟨[], []⟩ : Ballot T)) ∧
      rounds.length = labels.length := by
  obtain ⟨hb, hpos, hdvd, _⟩ := new_ok_inv labels votes b h
  have hdvd2 : b.count ∣ b.votes.length := by
    rw [hb]
    exact hdvd
  obtain ⟨rounds, haux, hlen⟩ := runoffAux_total b.count b rfl hdvd2
  refine ⟨rounds, ?_, ?_⟩
  · unfold Ballot.runoff
    rw [haux]
  · rw [hlen, hb]
    rfl

/-- C10 witness. -/
theorem c10_witness :
    Ballot.new [0, 1, 2] exampleBallot.votes = some (Except.ok exampleBallot) ∧
    ∃ rounds, exampleBallot.runoff = some (rounds, (⟨[], []⟩ : Ballot Nat)) ∧
      rounds.length = ([0, 1, 2] : List Nat).length :=
  ⟨by rfl,
   c10_round_count_exhaustion [0, 1, 2] exampleBallot.votes exampleBallot (by rfl)⟩

/-- C6: in every round, re-ranking transforms row `k` pointwise: with `r` the
row's value at the leader's column `w`, every cell strictly greater than `r`
drops by exactly one and every other cell is unchanged — `r` is per-row. -/
theorem c6_rerank_pointwise (count w : Nat) (votes : List Nat)
    (hn : 0 < count) (hdvd : count ∣ votes.length) (hw : w < count) :
    ∃ votes2, reRankVotes count w votes = some votes2 ∧
      votes2.length = votes.length ∧
      ∀ k j, j < count → k * count + j < votes.length →
        votes2.getD (k * count + j) 0 =
          (if votes.getD (k * count + w) 0 < votes.getD (k * count + j) 0
           then votes.getD (k * count + j) 0 - 1
           else votes.getD (k * count + j) 0) := by
  have hrows := chunks_row_length count hn votes hdvd
  have hfl : (chunks count votes).flatten = votes :=
    chunks_flatten_eq count hn votes hdvd
  have hmaplen : ∀ r2 ∈ (chunks count votes).map (reRankRow w),
      r2.length = count := by
    intro r2 hr2
    obtain ⟨r, hr, hval⟩ := List.mem_map.mp hr2
    rw [← hval, reRankRow_length]
    exact hrows r hr
  refine ⟨((chunks count votes).map (reRankRow w)).flatten,
    reRankVotes_eq count w votes hn hdvd hw, ?_, ?_⟩
  · rw [List.length_flatten, List.map_map]
    have hsum := sum_map_const (List.length ∘ reRankRow w) count
      (chunks count votes)
      (fun r hr => by
        show (reRankRow w r).length = count
        rw [reRankRow_length]
        exact hrows r hr)
    rw [hsum, chunks_length count hn votes hdvd, Nat.div_mul_cancel hdvd]
  · intro k j hj hidx
    have hklen : k < (chunks count votes).length := by
      rw [chunks_length count hn votes hdvd]
      by_contra hk
      have hge : votes.length / count ≤ k := by omega
      have h1 : (votes.length / count) * count ≤ k * count :=
        Nat.mul_le_mul_right count hge
      rw [Nat.div_mul_cancel hdvd] at h1
      omega
    have hrowmem : (chunks count votes).getD k [] ∈ chunks count votes := by
      rw [List.getD_eq_getElem?_getD, List.getElem?_eq_getElem hklen]
      exact List.getElem_mem _
    have hrowlen : ((chunks count votes).getD k []).length = count :=
      hrows _ hrowmem
    have hmapgetD : ((chunks count votes).map (reRankRow w)).getD k []
        = reRankRow w ((chunks count votes).getD k []) := by
      rw [List.getD_eq_getElem?_getD, List.getElem?_map,
        List.getElem?_eq_getElem hklen, List.getD_eq_getElem?_getD,
        List.getElem?_eq_getElem hklen]
      rfl
    have hLHS : (((chunks count votes).map (reRankRow w)).flatten).getD
        (k * count + j) 0
        = (reRankRow w ((chunks count votes).getD k [])).getD j 0 := by
      rw [flatten_getD count _ k j hmaplen (by simpa using hklen) hj, hmapgetD]
    have hcell : ∀ i, i < count →
        votes.getD (k * count + i) 0 = ((chunks count votes).getD k []).getD i 0 := by
      intro i hi
      have hcg := flatten_getD count (chunks count votes) k i hrows hklen hi
      rw [hfl] at hcg
      exact hcg
    have hRHS : (reRankRow w ((chunks count votes).getD k [])).getD j 0
        = (if votes.getD (k * count + w) 0 < votes.getD (k * count + j) 0
           then votes.getD (k * count + j) 0 - 1
           else votes.getD (k * count + j) 0) := by
      have hjrow : j < ((chunks count votes).getD k []).length := by omega
      unfold reRankRow
      rw [List.getD_eq_getElem?_getD, List.getElem?_map,
        List.getElem?_eq_getElem hjrow]
      rw [hcell w hw, hcell j hj]
      have hjget : ((chunks count votes).getD k []).getD j 0
          = ((chunks count votes).getD k [])[j] := getD_zero_eq _ j hjrow
      rw [Option.map_some', Option.getD_some, hjget]
    rw [hLHS, hRHS]

/-- C6 witness: the tie example, leader column 0. -/
theorem c6_witness :
    ∃ votes2, reRankVotes 2 0 [0, 1, 1, 0] = some votes2 ∧
      votes2.length = ([0, 1, 1, 0] : List Nat).length ∧
      ∀ k j, j < 2 → k * 2 + j < ([0, 1, 1, 0] : List Nat).length →
        votes2.getD (k * 2 + j) 0 =
          (if ([0, 1, 1, 0] : List Nat).getD (k * 2 + 0) 0
              < ([0, 1, 1, 0] : List Nat).getD (k * 2 + j) 0
           then ([0, 1, 1, 0] : List Nat).getD (k * 2 + j) 0 - 1
           else ([0, 1, 1, 0] : List Nat).getD (k * 2 + j) 0) :=
  c6_rerank_pointwise 2 0 [0, 1, 1, 0] (by decide) ⟨2, rfl⟩ (by decide)

end Rankit


